import Mathlib

/-!
Verification of `src/threadpool-pthreads.c` (pthreadpool-minios).

The compute entry points of this source file only contain the sequential
NULL-pool fallback loops; the present-pool branches are empty.  We embed
each entry point as a function from its numeric arguments to the trace of
callback invocations it performs, in order: an element of the trace records
the index arguments of one call to the user callback.  The callback and its
opaque argument are not interpreted.  A `none` pool handle models a NULL
`pthreadpool*`; `some p` models a non-NULL handle.

The tiled fallback loops advance their index by the tile size, so with a
tile of zero and a non-empty range they never terminate; we embed them as
fuel-indexed loops returning `Option`, `none` meaning the fuel ran out
before the loop exited (and we prove that for a zero tile no fuel ever
suffices, while for a positive tile the fuel chosen by the entry point
always does).
-/

/-- The pool structure of the source (`struct pthreadpool`).  Only the
`threads_count` field (the number of threads in the thread pool, never
changed after construction) is observable through the functions of this
excerpt; the synchronization fields carry no value relevant to the traces
we model. -/
structure pthreadpool where
  threads_count : Nat
deriving DecidableEq

/-- `pthreadpool_get_threads_count`: returns 1 for a NULL handle,
otherwise the pool's `threads_count` field. -/
def pthreadpool_get_threads_count (threadpool : Option pthreadpool) : Nat :=
  match threadpool with
  | none => 1
  | some p => p.threads_count

/-- `divide_round_up(dividend, divisor)` from the source: `dividend / divisor`
when the remainder is zero, `dividend / divisor + 1` otherwise. -/
def divide_round_up (dividend divisor : Nat) : Nat :=
  if dividend % divisor = 0 then dividend / divisor
  else dividend / divisor + 1

/-- The loop `for (i = 0; i < range; i++) function(argument, i);` of
`pthreadpool_compute_1d`, started at index `i`; returns the trace of
indices passed to the callback, in call order. -/
def compute_1d_loop (range : Nat) (i : Nat) : List Nat :=
  if i < range then i :: compute_1d_loop range (i + 1) else []
termination_by range - i

/-- `pthreadpool_compute_1d`: with a NULL pool, run the sequential loop on
the calling thread; with a non-NULL pool the body of the function is empty
(no callback invocation happens). -/
def pthreadpool_compute_1d (threadpool : Option pthreadpool) (range : Nat) :
    List Nat :=
  match threadpool with
  | none => compute_1d_loop range 0
  | some _ => []

lemma compute_1d_loop_eq (range i : Nat) :
    compute_1d_loop range i = List.range' i (range - i) := by
  rw [compute_1d_loop]
  split
  · case isTrue h =>
      rw [compute_1d_loop_eq range (i + 1)]
      have h1 : range - i = (range - (i + 1)) + 1 := by omega
      rw [h1]
      rfl
  · case isFalse h =>
      have h1 : range - i = 0 := by omega
      rw [h1]
      rfl
termination_by range - i

lemma pthreadpool_compute_1d_none (range : Nat) :
    pthreadpool_compute_1d none range = List.range range := by
  show compute_1d_loop range 0 = List.range range
  rw [compute_1d_loop_eq, Nat.sub_zero, List.range_eq_range']

/-- Claim C1: with an absent (NULL) pool handle, `pthreadpool_compute_1d`
invokes the callback exactly once per index `i` in `{0, …, N-1}`, in
strictly increasing order (the trace is literally `[0, 1, …, N-1]`, and the
loop runs on the calling thread only); for `N = 5` the call sequence is
exactly `0,1,2,3,4`, and for `N = 0` the callback is never invoked. -/
theorem compute_1d_sequential_fallback :
    (∀ range : Nat, pthreadpool_compute_1d none range = List.range range) ∧
    (∀ range : Nat,
      (pthreadpool_compute_1d none range).Pairwise (· < ·)) ∧
    pthreadpool_compute_1d none 5 = [0, 1, 2, 3, 4] ∧
    pthreadpool_compute_1d none 0 = [] := by
  refine ⟨pthreadpool_compute_1d_none, ?_, ?_, ?_⟩
  · intro range
    rw [pthreadpool_compute_1d_none]
    exact List.pairwise_lt_range range
  · rw [pthreadpool_compute_1d_none]; rfl
  · rw [pthreadpool_compute_1d_none]; rfl

/-- Claim C2 counterexample: with a present (non-NULL) pool of one thread
and range 1, the callback is never invoked for index 0 — the job is not
delegated anywhere, contradicting the claim that every index in `[0, N)`
is eventually executed. -/
theorem compute_1d_present_no_delegation_counterexample :
    ¬ (0 ∈ pthreadpool_compute_1d (some ⟨1⟩) 1) := by
  decide

/-- Claim C2 (amended): for every non-NULL pool handle and every range, the
present-pool branch of `pthreadpool_compute_1d` is empty in this source:
the function returns without invoking the callback at all (it does not
delegate to any dispatch mechanism). -/
theorem compute_1d_present_branch_empty (p : pthreadpool) (range : Nat) :
    pthreadpool_compute_1d (some p) range = [] := rfl

/-- Claim C7: `pthreadpool_get_threads_count` returns `threads_count` when
the handle is present and 1 when it is absent; under the construction
precondition that `threads_count` is positive, the result is always ≥ 1. -/
theorem get_threads_count_spec (p : pthreadpool) (hpos : 1 ≤ p.threads_count) :
    pthreadpool_get_threads_count none = 1 ∧
    pthreadpool_get_threads_count (some p) = p.threads_count ∧
    1 ≤ pthreadpool_get_threads_count (some p) := by
  exact ⟨rfl, rfl, hpos⟩

/-- Witness for C7 at a concrete pool with 4 threads. -/
theorem get_threads_count_spec_witness :
    pthreadpool_get_threads_count none = 1 ∧
    pthreadpool_get_threads_count (some ⟨4⟩) = (4 : Nat) ∧
    1 ≤ pthreadpool_get_threads_count (some ⟨4⟩) :=
  get_threads_count_spec ⟨4⟩ (by decide)

/-- Claim C10: for every dividend `d` and divisor `s ≥ 1`,
`divide_round_up d s` is the ceiling of `d / s`: it equals `(d + s - 1) / s`,
equals `d / s` exactly when `s` divides `d`, and `d / s + 1` otherwise. -/
theorem divide_round_up_is_ceiling (d s : Nat) (hs : 1 ≤ s) :
    divide_round_up d s = (d + s - 1) / s ∧
    (s ∣ d → divide_round_up d s = d / s) ∧
    (¬ s ∣ d → divide_round_up d s = d / s + 1) := by
  have hd := Nat.div_add_mod d s
  have hrlt : d % s < s := Nat.mod_lt d (by omega)
  refine ⟨?_, ?_, ?_⟩
  · rw [divide_round_up]
    by_cases h : d % s = 0
    · rw [if_pos h]
      have h1 : d + s - 1 = s * (d / s) + (s - 1) := by omega
      rw [h1, Nat.mul_add_div (by omega)]
      have h2 : (s - 1) / s = 0 := Nat.div_eq_of_lt (by omega)
      omega
    · rw [if_neg h]
      have hmul : s * (d / s + 1) = s * (d / s) + s := by ring
      have h1 : d + s - 1 = s * (d / s + 1) + (d % s - 1) := by omega
      rw [h1, Nat.mul_add_div (by omega)]
      have h2 : (d % s - 1) / s = 0 := Nat.div_eq_of_lt (by omega)
      omega
  · intro hdvd
    rw [divide_round_up, if_pos (Nat.dvd_iff_mod_eq_zero.mp hdvd)]
  · intro hndvd
    rw [divide_round_up,
      if_neg (fun h => hndvd (Nat.dvd_iff_mod_eq_zero.mpr h))]

/-- The inner loop `for (j = 0; j < range_j; j++) function(argument, i, j);`
of `pthreadpool_compute_2d`, at fixed outer index `i`, started at `j`. -/
def compute_2d_inner_loop (i range_j j : Nat) : List (Nat × Nat) :=
  if j < range_j then (i, j) :: compute_2d_inner_loop i range_j (j + 1) else []
termination_by range_j - j

/-- The outer loop of `pthreadpool_compute_2d`, started at index `i`. -/
def compute_2d_outer_loop (range_i range_j i : Nat) : List (Nat × Nat) :=
  if i < range_i then
    compute_2d_inner_loop i range_j 0 ++ compute_2d_outer_loop range_i range_j (i + 1)
  else []
termination_by range_i - i

/-- `pthreadpool_compute_2d`: with a NULL pool, run the sequential nested
loops on the calling thread; with a non-NULL pool the body is empty. -/
def pthreadpool_compute_2d (threadpool : Option pthreadpool)
    (range_i range_j : Nat) : List (Nat × Nat) :=
  match threadpool with
  | none => compute_2d_outer_loop range_i range_j 0
  | some _ => []

/-- `fxdiv_divide_size_t` of the `fxdiv` dependency: simultaneous quotient
and remainder of `n` by a precomputed divisor `d`; its contract for a
divisor ≥ 1 is exactly truncated division and remainder. -/
def fxdiv_divide_size_t (n d : Nat) : Nat × Nat := (n / d, n % d)

/-- The static helper `compute_2d` of the source: maps a linear index to
the `(i, j)` pair passed to the user callback, via `fxdiv` division by
`range_j` (quotient = row, remainder = column). -/
def compute_2d (range_j : Nat) (linear_index : Nat) : Nat × Nat :=
  fxdiv_divide_size_t linear_index range_j

/-- The row-major enumeration of `[0, range_i) × [0, range_j)`. -/
def rowMajor (range_i range_j : Nat) : List (Nat × Nat) :=
  (List.range range_i).flatMap
    (fun x => (List.range range_j).map (fun y => (x, y)))

/-- Strict row-major (lexicographic) order on pairs. -/
def rowLex (p q : Nat × Nat) : Prop :=
  p.1 < q.1 ∨ (p.1 = q.1 ∧ p.2 < q.2)

lemma compute_2d_inner_loop_eq (i range_j j : Nat) :
    compute_2d_inner_loop i range_j j =
      (List.range' j (range_j - j)).map (fun y => (i, y)) := by
  rw [compute_2d_inner_loop]
  split
  · case isTrue h =>
      rw [compute_2d_inner_loop_eq i range_j (j + 1)]
      have h1 : range_j - j = (range_j - (j + 1)) + 1 := by omega
      rw [h1]
      rfl
  · case isFalse h =>
      have h1 : range_j - j = 0 := by omega
      rw [h1]
      rfl
termination_by range_j - j

lemma compute_2d_outer_loop_eq (range_i range_j i : Nat) :
    compute_2d_outer_loop range_i range_j i =
      (List.range' i (range_i - i)).flatMap
        (fun x => (List.range range_j).map (fun y => (x, y))) := by
  rw [compute_2d_outer_loop]
  split
  · case isTrue h =>
      rw [compute_2d_outer_loop_eq range_i range_j (i + 1),
        compute_2d_inner_loop_eq, Nat.sub_zero, ← List.range_eq_range']
      have h1 : range_i - i = (range_i - (i + 1)) + 1 := by omega
      rw [h1]
      rfl
  · case isFalse h =>
      have h1 : range_i - i = 0 := by omega
      rw [h1]
      rfl
termination_by range_i - i

lemma pthreadpool_compute_2d_none (range_i range_j : Nat) :
    pthreadpool_compute_2d none range_i range_j = rowMajor range_i range_j := by
  show compute_2d_outer_loop range_i range_j 0 = rowMajor range_i range_j
  rw [compute_2d_outer_loop_eq, Nat.sub_zero, ← List.range_eq_range', rowMajor]

lemma rowMajor_mem (range_i range_j : Nat) (p : Nat × Nat) :
    p ∈ rowMajor range_i range_j ↔ p.1 < range_i ∧ p.2 < range_j := by
  cases p with
  | mk a b =>
    constructor
    · intro h
      obtain ⟨x, hx, hmem⟩ := List.mem_flatMap.mp h
      obtain ⟨y, hy, hxy⟩ := List.mem_map.mp hmem
      cases hxy
      exact ⟨List.mem_range.mp hx, List.mem_range.mp hy⟩
    · intro h
      exact List.mem_flatMap.mpr ⟨a, List.mem_range.mpr h.1,
        List.mem_map.mpr ⟨b, List.mem_range.mpr h.2, rfl⟩⟩

lemma rowMajor_succ (range_i range_j : Nat) :
    rowMajor (range_i + 1) range_j =
      rowMajor range_i range_j ++ (List.range range_j).map (fun y => (range_i, y)) := by
  rw [rowMajor, List.range_succ, List.flatMap_append, rowMajor]
  simp

lemma rowMajor_pairwise (range_i range_j : Nat) :
    (rowMajor range_i range_j).Pairwise rowLex := by
  induction range_i with
  | zero =>
      rw [rowMajor]
      simp
  | succ n ih =>
      rw [rowMajor_succ, List.pairwise_append]
      refine ⟨ih, ?_, ?_⟩
      · refine List.Pairwise.map _ ?_ (List.pairwise_lt_range range_j)
        intro a b hab
        exact Or.inr ⟨rfl, hab⟩
      · intro a ha b hb
        obtain ⟨ha1, _⟩ := (rowMajor_mem n range_j a).mp ha
        obtain ⟨y, _, hy⟩ := List.mem_map.mp hb
        cases hy
        exact Or.inl ha1

/-- Claim C4: with an absent (NULL) pool handle, `pthreadpool_compute_2d`
invokes the callback once per pair `(i, j)` with `i < range_i` and
`j < range_j`, in row-major strictly increasing order; for
`range_i = 2, range_j = 3` the call sequence is exactly
`(0,0),(0,1),(0,2),(1,0),(1,1),(1,2)`. -/
theorem compute_2d_sequential_fallback :
    (∀ range_i range_j : Nat,
      pthreadpool_compute_2d none range_i range_j = rowMajor range_i range_j) ∧
    (∀ range_i range_j : Nat,
      (pthreadpool_compute_2d none range_i range_j).Pairwise rowLex) ∧
    (∀ (range_i range_j : Nat) (p : Nat × Nat),
      p ∈ pthreadpool_compute_2d none range_i range_j ↔
        p.1 < range_i ∧ p.2 < range_j) ∧
    pthreadpool_compute_2d none 2 3 = [(0, 0), (0, 1), (0, 2), (1, 0), (1, 1), (1, 2)] := by
  refine ⟨pthreadpool_compute_2d_none, ?_, ?_, ?_⟩
  · intro range_i range_j
    rw [pthreadpool_compute_2d_none]
    exact rowMajor_pairwise range_i range_j
  · intro range_i range_j p
    rw [pthreadpool_compute_2d_none]
    exact rowMajor_mem range_i range_j p
  · rw [pthreadpool_compute_2d_none]
    rfl

/-- Claim C6: the adapter `compute_2d` sends linear index `l` to the pair
`(l / range_j, l % range_j)`; for `range_j ≥ 1`, mapping it over linear
indices `0, …, range_i * range_j - 1` in order reproduces exactly the
`(i, j)` call sequence of the sequential nested-loop fallback of
`pthreadpool_compute_2d`. -/
theorem compute_2d_adapter_refines_fallback (range_i range_j : Nat)
    (h : 1 ≤ range_j) :
    (∀ l : Nat, compute_2d range_j l = (l / range_j, l % range_j)) ∧
    (List.range (range_i * range_j)).map (compute_2d range_j) =
      pthreadpool_compute_2d none range_i range_j := by
  refine ⟨fun _ => rfl, ?_⟩
  rw [pthreadpool_compute_2d_none]
  induction range_i with
  | zero =>
      rw [Nat.zero_mul, rowMajor]
      simp
  | succ n ih =>
      have hmul : (n + 1) * range_j = n * range_j + range_j := by ring
      rw [hmul, List.range_add, List.map_append, ih, rowMajor_succ,
        List.map_map]
      refine congrArg _ (List.map_congr_left ?_)
      intro y hy
      have hylt : y < range_j := List.mem_range.mp hy
      show compute_2d range_j (n * range_j + y) = (n, y)
      rw [compute_2d, fxdiv_divide_size_t]
      have hdiv : (n * range_j + y) / range_j = n := by
        rw [Nat.mul_comm n range_j, Nat.mul_add_div (by omega),
          Nat.div_eq_of_lt hylt, Nat.add_zero]
      have hmod : (n * range_j + y) % range_j = y := by
        rw [Nat.mul_comm n range_j, Nat.mul_add_mod, Nat.mod_eq_of_lt hylt]
      rw [hdiv, hmod]

/-- Witness for C6 at `range_i = 2`, `range_j = 3`. -/
theorem compute_2d_adapter_refines_fallback_witness :
    (∀ l : Nat, compute_2d 3 l = (l / 3, l % 3)) ∧
    (List.range (2 * 3)).map (compute_2d 3) = pthreadpool_compute_2d none 2 3 :=
  compute_2d_adapter_refines_fallback 2 3 (by decide)

/-- The loop `for (i = 0; i < range; i += tile) function(argument, i,
min(range - i, tile));` of `pthreadpool_compute_1d_tiled`, started at `i`
with `fuel` remaining permitted iterations.  `none` means the fuel was
exhausted with the loop still running (so the C loop would not have exited
within `fuel` iterations); the trace records `(offset, width)` chunks. -/
def compute_1d_tiled_loop (range tile i fuel : Nat) : Option (List (Nat × Nat)) :=
  if i < range then
    match fuel with
    | 0 => none
    | f + 1 =>
        (compute_1d_tiled_loop range tile (i + tile) f).map
          (fun l => (i, min (range - i) tile) :: l)
  else some []

/-- `pthreadpool_compute_1d_tiled`: with a NULL pool, run the sequential
tiled loop (a positive tile advances `i` by at least 1 per iteration, so
`range` iterations always suffice; the loop diverges only when that fuel
bound fails, i.e. for `tile = 0` with a non-empty range); with a non-NULL
pool the body is empty. -/
def pthreadpool_compute_1d_tiled (threadpool : Option pthreadpool)
    (range tile : Nat) : Option (List (Nat × Nat)) :=
  match threadpool with
  | none => compute_1d_tiled_loop range tile 0 range
  | some _ => some []

/-- The inner loop of `pthreadpool_compute_2d_tiled` at fixed row offset
`i`: `for (j = 0; j < range_j; j += tile_j)` producing
`(i, j, min(range_i - i, tile_i), min(range_j - j, tile_j))` chunks. -/
def compute_2d_tiled_inner_loop (range_i range_j tile_i tile_j i j fuel : Nat) :
    Option (List (Nat × Nat × Nat × Nat)) :=
  if j < range_j then
    match fuel with
    | 0 => none
    | f + 1 =>
        (compute_2d_tiled_inner_loop range_i range_j tile_i tile_j i (j + tile_j) f).map
          (fun l => (i, j, min (range_i - i) tile_i, min (range_j - j) tile_j) :: l)
  else some []

/-- The outer loop of `pthreadpool_compute_2d_tiled`:
`for (i = 0; i < range_i; i += tile_i)` running the inner loop each
iteration (inner fuel `range_j` suffices whenever `tile_j ≥ 1`). -/
def compute_2d_tiled_outer_loop (range_i range_j tile_i tile_j i fuel : Nat) :
    Option (List (Nat × Nat × Nat × Nat)) :=
  if i < range_i then
    match fuel with
    | 0 => none
    | f + 1 =>
        match compute_2d_tiled_inner_loop range_i range_j tile_i tile_j i 0 range_j with
        | none => none
        | some inner =>
            (compute_2d_tiled_outer_loop range_i range_j tile_i tile_j (i + tile_i) f).map
              (fun rest => inner ++ rest)
  else some []

/-- `pthreadpool_compute_2d_tiled`: with a NULL pool, run the sequential
nested tiled loops; with a non-NULL pool the body is empty. -/
def pthreadpool_compute_2d_tiled (threadpool : Option pthreadpool)
    (range_i range_j tile_i tile_j : Nat) :
    Option (List (Nat × Nat × Nat × Nat)) :=
  match threadpool with
  | none => compute_2d_tiled_outer_loop range_i range_j tile_i tile_j 0 range_i
  | some _ => some []

lemma compute_1d_tiled_loop_sound (range tile : Nat) (htile : 1 ≤ tile)
    (fuel : Nat) :
    ∀ i : Nat, range - i ≤ fuel →
      ∃ l, compute_1d_tiled_loop range tile i fuel = some l ∧
        ∀ p ∈ l, p.1 % tile = i % tile ∧ p.1 < range ∧
          p.2 = min (range - p.1) tile := by
  induction fuel with
  | zero =>
      intro i hfuel
      rw [compute_1d_tiled_loop, if_neg (by omega)]
      exact ⟨[], rfl, by simp⟩
  | succ f ih =>
      intro i hfuel
      rw [compute_1d_tiled_loop]
      by_cases h : i < range
      · rw [if_pos h]
        obtain ⟨l, hl, hprop⟩ := ih (i + tile) (by omega)
        rw [hl]
        refine ⟨_, rfl, ?_⟩
        intro p hp
        rcases List.mem_cons.mp hp with h1 | h1
        · subst h1
          exact ⟨rfl, h, rfl⟩
        · obtain ⟨hm, hlt, hw⟩ := hprop p h1
          refine ⟨?_, hlt, hw⟩
          rw [hm, Nat.add_mod_right]
      · rw [if_neg h]
        exact ⟨[], rfl, by simp⟩

lemma compute_2d_tiled_inner_loop_sound (range_i range_j tile_i tile_j i : Nat)
    (htj : 1 ≤ tile_j) (fuel : Nat) :
    ∀ j : Nat, range_j - j ≤ fuel →
      ∃ l, compute_2d_tiled_inner_loop range_i range_j tile_i tile_j i j fuel = some l ∧
        ∀ p ∈ l, p.1 = i ∧ p.2.1 % tile_j = j % tile_j ∧ p.2.1 < range_j ∧
          p.2.2.1 = min (range_i - i) tile_i ∧
          p.2.2.2 = min (range_j - p.2.1) tile_j := by
  induction fuel with
  | zero =>
      intro j hfuel
      rw [compute_2d_tiled_inner_loop, if_neg (by omega)]
      exact ⟨[], rfl, by simp⟩
  | succ f ih =>
      intro j hfuel
      rw [compute_2d_tiled_inner_loop]
      by_cases h : j < range_j
      · rw [if_pos h]
        obtain ⟨l, hl, hprop⟩ := ih (j + tile_j) (by omega)
        rw [hl]
        refine ⟨_, rfl, ?_⟩
        intro p hp
        rcases List.mem_cons.mp hp with h1 | h1
        · subst h1
          exact ⟨rfl, rfl, h, rfl, rfl⟩
        · obtain ⟨hi, hm, hlt, hwi, hwj⟩ := hprop p h1
          refine ⟨hi, ?_, hlt, hwi, hwj⟩
          rw [hm, Nat.add_mod_right]
      · rw [if_neg h]
        exact ⟨[], rfl, by simp⟩

lemma compute_2d_tiled_outer_loop_sound (range_i range_j tile_i tile_j : Nat)
    (hti : 1 ≤ tile_i) (htj : 1 ≤ tile_j) (fuel : Nat) :
    ∀ i : Nat, range_i - i ≤ fuel →
      ∃ l, compute_2d_tiled_outer_loop range_i range_j tile_i tile_j i fuel = some l ∧
        ∀ p ∈ l, p.1 % tile_i = i % tile_i ∧ p.1 < range_i ∧
          p.2.1 % tile_j = 0 ∧ p.2.1 < range_j ∧
          p.2.2.1 = min (range_i - p.1) tile_i ∧
          p.2.2.2 = min (range_j - p.2.1) tile_j := by
  induction fuel with
  | zero =>
      intro i hfuel
      rw [compute_2d_tiled_outer_loop, if_neg (by omega)]
      exact ⟨[], rfl, by simp⟩
  | succ f ih =>
      intro i hfuel
      rw [compute_2d_tiled_outer_loop]
      by_cases h : i < range_i
      · rw [if_pos h]
        obtain ⟨linner, hinner, hpropi⟩ :=
          compute_2d_tiled_inner_loop_sound range_i range_j tile_i tile_j i htj
            range_j 0 (by omega)
        obtain ⟨lrest, hrest, hpropr⟩ := ih (i + tile_i) (by omega)
        rw [hinner, hrest]
        refine ⟨_, rfl, ?_⟩
        intro p hp
        rcases List.mem_append.mp hp with h1 | h1
        · obtain ⟨hfst, hm, hlt, hwi, hwj⟩ := hpropi p h1
          refine ⟨by rw [hfst], by rw [hfst]; exact h, by rw [hm, Nat.zero_mod], hlt, ?_, hwj⟩
          rw [hwi, hfst]
        · obtain ⟨hm, hlt, hmj, hltj, hwi, hwj⟩ := hpropr p h1
          refine ⟨?_, hlt, hmj, hltj, hwi, hwj⟩
          rw [hm, Nat.add_mod_right]
      · rw [if_neg h]
        exact ⟨[], rfl, by simp⟩

lemma compute_1d_tiled_loop_zero_tile (range : Nat) :
    ∀ (fuel i : Nat), i < range →
      compute_1d_tiled_loop range 0 i fuel = none := by
  intro fuel
  induction fuel with
  | zero =>
      intro i h
      rw [compute_1d_tiled_loop, if_pos h]
  | succ f ih =>
      intro i h
      rw [compute_1d_tiled_loop, if_pos h, ih (i + 0) (by omega)]
      rfl

/-- Claim C5: every chunk produced by a tiled fallback (1-D or 2-D) starts
at an offset that is a multiple of the tile size and carries width
`min(tile, range - offset)` — the last chunk is clipped to the remaining
range; for `range = 10, tile = 4` the chunks are exactly
`[0,4), [4,8), [8,10)`, the last of width 2. -/
theorem tiled_chunk_clipping :
    (∀ range tile : Nat, 1 ≤ tile →
      ∃ l, pthreadpool_compute_1d_tiled none range tile = some l ∧
        ∀ p ∈ l, p.1 % tile = 0 ∧ p.1 < range ∧
          p.2 = min tile (range - p.1)) ∧
    (∀ range_i range_j tile_i tile_j : Nat, 1 ≤ tile_i → 1 ≤ tile_j →
      ∃ l, pthreadpool_compute_2d_tiled none range_i range_j tile_i tile_j = some l ∧
        ∀ p ∈ l, p.1 % tile_i = 0 ∧ p.2.1 % tile_j = 0 ∧
          p.2.2.1 = min tile_i (range_i - p.1) ∧
          p.2.2.2 = min tile_j (range_j - p.2.1)) ∧
    pthreadpool_compute_1d_tiled none 10 4 = some [(0, 4), (4, 4), (8, 2)] := by
  refine ⟨?_, ?_, by decide⟩
  · intro range tile htile
    obtain ⟨l, hl, hprop⟩ :=
      compute_1d_tiled_loop_sound range tile htile range 0 (by omega)
    refine ⟨l, hl, ?_⟩
    intro p hp
    obtain ⟨hm, hlt, hw⟩ := hprop p hp
    rw [Nat.zero_mod] at hm
    exact ⟨hm, hlt, by rw [hw, Nat.min_comm]⟩
  · intro range_i range_j tile_i tile_j hti htj
    obtain ⟨l, hl, hprop⟩ :=
      compute_2d_tiled_outer_loop_sound range_i range_j tile_i tile_j hti htj
        range_i 0 (by omega)
    refine ⟨l, hl, ?_⟩
    intro p hp
    obtain ⟨hmi, _, hmj, _, hwi, hwj⟩ := hprop p hp
    rw [Nat.zero_mod] at hmi
    exact ⟨hmi, hmj, by rw [hwi, Nat.min_comm], by rw [hwj, Nat.min_comm]⟩

/-- Witness for C5: the 1-D case at `range = 10, tile = 4` and the 2-D
case at `range_i = 5, range_j = 7, tile_i = 2, tile_j = 3`. -/
theorem tiled_chunk_clipping_witness :
    (∃ l, pthreadpool_compute_1d_tiled none 10 4 = some l ∧
      ∀ p ∈ l, p.1 % 4 = 0 ∧ p.1 < 10 ∧ p.2 = min 4 (10 - p.1)) ∧
    (∃ l, pthreadpool_compute_2d_tiled none 5 7 2 3 = some l ∧
      ∀ p ∈ l, p.1 % 2 = 0 ∧ p.2.1 % 3 = 0 ∧
        p.2.2.1 = min 2 (5 - p.1) ∧ p.2.2.2 = min 3 (7 - p.2.1)) :=
  ⟨tiled_chunk_clipping.1 10 4 (by decide),
   tiled_chunk_clipping.2.1 5 7 2 3 (by decide) (by decide)⟩

/-- Claim C8: with a non-NULL pool handle, each of the four compute entry
points of this source returns without invoking the callback even once —
the present-pool branch of every entry point is empty. -/
theorem compute_present_pool_branches_empty :
    (∀ (p : pthreadpool) (range : Nat),
      pthreadpool_compute_1d (some p) range = []) ∧
    (∀ (p : pthreadpool) (range tile : Nat),
      pthreadpool_compute_1d_tiled (some p) range tile = some []) ∧
    (∀ (p : pthreadpool) (range_i range_j : Nat),
      pthreadpool_compute_2d (some p) range_i range_j = []) ∧
    (∀ (p : pthreadpool) (range_i range_j tile_i tile_j : Nat),
      pthreadpool_compute_2d_tiled (some p) range_i range_j tile_i tile_j = some []) :=
  ⟨fun _ _ => rfl, fun _ _ _ => rfl, fun _ _ _ => rfl, fun _ _ _ _ _ => rfl⟩

/-- Claim C9: the NULL-pool tiled fallbacks terminate exactly under the
precondition that every tile is positive: for `tile ≥ 1` the 1-D tiled
loop exits within its fuel bound (the index strictly increases each
iteration), likewise the 2-D tiled loops for `tile_i ≥ 1, tile_j ≥ 1`;
with `tile = 0` and a non-empty range the index never advances and no
iteration bound suffices. -/
theorem tiled_fallback_termination :
    (∀ range tile : Nat, 1 ≤ tile →
      (pthreadpool_compute_1d_tiled none range tile).isSome = true) ∧
    (∀ range_i range_j tile_i tile_j : Nat, 1 ≤ tile_i → 1 ≤ tile_j →
      (pthreadpool_compute_2d_tiled none range_i range_j tile_i tile_j).isSome = true) ∧
    (∀ range fuel i : Nat, i < range →
      compute_1d_tiled_loop range 0 i fuel = none) ∧
    (∀ range : Nat, 1 ≤ range →
      pthreadpool_compute_1d_tiled none range 0 = none) := by
  refine ⟨?_, ?_, compute_1d_tiled_loop_zero_tile, ?_⟩
  · intro range tile htile
    obtain ⟨l, hl, _⟩ :=
      compute_1d_tiled_loop_sound range tile htile range 0 (by omega)
    show (compute_1d_tiled_loop range tile 0 range).isSome = true
    rw [hl]
    rfl
  · intro range_i range_j tile_i tile_j hti htj
    obtain ⟨l, hl, _⟩ :=
      compute_2d_tiled_outer_loop_sound range_i range_j tile_i tile_j hti htj
        range_i 0 (by omega)
    show (compute_2d_tiled_outer_loop range_i range_j tile_i tile_j 0 range_i).isSome = true
    rw [hl]
    rfl
  · intro range hrange
    show compute_1d_tiled_loop range 0 0 range = none
    exact compute_1d_tiled_loop_zero_tile range range 0 (by omega)

/-- Witness for C9 at `range = 10, tile = 4` (and 2-D `5,7,2,3`), and
divergence at `range = 3, tile = 0` with fuel 5. -/
theorem tiled_fallback_termination_witness :
    (pthreadpool_compute_1d_tiled none 10 4).isSome = true ∧
    (pthreadpool_compute_2d_tiled none 5 7 2 3).isSome = true ∧
    compute_1d_tiled_loop 3 0 1 5 = none ∧
    pthreadpool_compute_1d_tiled none 3 0 = none :=
  ⟨tiled_fallback_termination.1 10 4 (by decide),
   tiled_fallback_termination.2.1 5 7 2 3 (by decide) (by decide),
   tiled_fallback_termination.2.2.1 3 5 1 (by decide),
   tiled_fallback_termination.2.2.2 3 (by decide)⟩

/-- Witness for C10 at `d = 10`, `s = 4`. -/
theorem divide_round_up_is_ceiling_witness :
    divide_round_up 10 4 = (10 + 4 - 1) / 4 ∧
    ((4 : Nat) ∣ 10 → divide_round_up 10 4 = 10 / 4) ∧
    (¬ (4 : Nat) ∣ 10 → divide_round_up 10 4 = 10 / 4 + 1) :=
  divide_round_up_is_ceiling 10 4 (by decide)

/-- Modelled from the spec: the per-worker work range of `struct
thread_info` (declared in this source at lines 114–145, but the worker
loop and dispatch code that consume it are absent from the excerpt).  The
interval `[range_start, range_end)` is the work still owned by the worker;
the owner claims `range_start` and increments it, a thief claims
`range_end - 1` and decrements `range_end`.  A claim (the paired
`range_length` decrement and index update) is taken as one atomic event,
so the redundant `range_length` counter always equals
`range_end - range_start` and is omitted from the model. -/
structure thread_info where
  range_start : Nat
  range_end : Nat
deriving DecidableEq

/-- Modelled from the spec: the observable state of one dispatch — the
array of worker slots plus the list of indices on which the callback has
been executed so far (in some interleaved order across workers). -/
structure PoolState where
  slots : List thread_info
  executed : List Nat
deriving DecidableEq

/-- Modelled from the spec: the near-equal partition policy of
`dispatch` (§4.2): worker `k` of `threads_count` owns indices from
`slotStart k` to `slotStart (k+1)`, each worker getting
`⌊n / threads_count⌋` items and the first `n mod threads_count` workers
one extra, worker 0 taking the lowest indices. -/
def slotStart (threads_count n k : Nat) : Nat :=
  k * (n / threads_count) + min k (n % threads_count)

/-- Modelled from the spec: the worker slots written by `dispatch` before
any worker is woken. -/
def initSlots (threads_count n : Nat) : List thread_info :=
  (List.range threads_count).map
    (fun k => ⟨slotStart threads_count n k, slotStart threads_count n (k + 1)⟩)

/-- Modelled from the spec: the state right after `dispatch` publishes the
job — slots freshly partitioned, nothing executed yet. -/
def initState (threads_count n : Nat) : PoolState :=
  ⟨initSlots threads_count n, []⟩

/-- Modelled from the spec: one scheduling event of the work-stealing
phase (§4.3).  `own` is an owner claiming the lowest index of a non-empty
slot `k` (incrementing `range_start`); `steal` is a thief claiming the
highest index (decrementing `range_end`).  Scheduling interleavings are
exactly the finite sequences of such events. -/
inductive StealStep : PoolState → PoolState → Prop
  | own (st : PoolState) (k : Nat) (s : thread_info)
      (hk : st.slots[k]? = some s) (hne : s.range_start < s.range_end) :
      StealStep st ⟨st.slots.set k ⟨s.range_start + 1, s.range_end⟩,
        st.executed ++ [s.range_start]⟩
  | steal (st : PoolState) (k : Nat) (s : thread_info)
      (hk : st.slots[k]? = some s) (hne : s.range_start < s.range_end) :
      StealStep st ⟨st.slots.set k ⟨s.range_start, s.range_end - 1⟩,
        st.executed ++ [s.range_end - 1]⟩

/-- Modelled from the spec: the completion condition — every slot's range
has been drained (`range_length` reached 0, i.e. `range_end ≤
range_start`), after which no further index can be claimed. -/
def allDone (st : PoolState) : Prop :=
  ∀ s ∈ st.slots, s.range_end ≤ s.range_start

instance allDone_decidable (st : PoolState) : Decidable (allDone st) :=
  inferInstanceAs (Decidable (∀ s ∈ st.slots, s.range_end ≤ s.range_start))

/-- The multiset of indices of the half-open interval `[a, b)`. -/
def ival (a b : Nat) : Multiset Nat :=
  ((List.range' a (b - a) : List Nat) : Multiset Nat)

/-- The multiset of indices still owned by one slot. -/
def ivalSlot (s : thread_info) : Multiset Nat :=
  ival s.range_start s.range_end

/-- The multiset of all indices still owned by any slot. -/
def slotsMs (l : List thread_info) : Multiset Nat :=
  (l.map ivalSlot).sum

/-- The accounting multiset of a state: executed indices plus owned
indices. -/
def stateMs (st : PoolState) : Multiset Nat :=
  (st.executed : Multiset Nat) + slotsMs st.slots

lemma ival_empty (a b : Nat) (h : b ≤ a) : ival a b = 0 := by
  rw [ival]
  have h1 : b - a = 0 := by omega
  rw [h1]
  rfl

lemma ival_cons_left (a b : Nat) (h : a < b) :
    ival a b = a ::ₘ ival (a + 1) b := by
  rw [ival, ival]
  have h1 : b - a = (b - (a + 1)) + 1 := by omega
  rw [h1, List.range'_succ, ← Multiset.cons_coe]

lemma ival_cons_right (a b : Nat) (h : a < b) :
    ival a b = (b - 1) ::ₘ ival a (b - 1) := by
  rw [ival, ival]
  have h1 : b - a = (b - 1 - a) + 1 := by omega
  rw [h1, List.range'_concat]
  have h2 : a + 1 * (b - 1 - a) = b - 1 := by omega
  rw [h2, ← Multiset.coe_add, Multiset.coe_singleton, add_comm,
    Multiset.singleton_add]

lemma ival_append (a b c : Nat) (hab : a ≤ b) (hbc : b ≤ c) :
    ival a b + ival b c = ival a c := by
  rw [ival, ival, ival, Multiset.coe_add]
  have h3 : List.range' b (c - b) = List.range' (a + 1 * (b - a)) (c - b) := by
    have h4 : b = a + 1 * (b - a) := by omega
    rw [← h4]
  rw [h3, List.range'_append]
  have h5 : (c - b) + (b - a) = c - a := by omega
  rw [h5]

lemma slotsMs_cons (s : thread_info) (l : List thread_info) :
    slotsMs (s :: l) = ivalSlot s + slotsMs l := by
  rw [slotsMs, slotsMs, List.map_cons, List.sum_cons]

lemma slotsMs_set (l : List thread_info) (k : Nat) (s s' : thread_info)
    (hk : l[k]? = some s) :
    slotsMs (l.set k s') + ivalSlot s = slotsMs l + ivalSlot s' := by
  induction l generalizing k with
  | nil => simp at hk
  | cons hd tl ih =>
      cases k with
      | zero =>
          simp only [List.getElem?_cons_zero, Option.some.injEq] at hk
          subst hk
          rw [List.set_cons_zero, slotsMs_cons, slotsMs_cons]
          abel
      | succ k =>
          simp only [List.getElem?_cons_succ] at hk
          rw [List.set_cons_succ, slotsMs_cons, slotsMs_cons, add_assoc,
            add_assoc, ih k hk]

lemma stealStep_stateMs (st st' : PoolState) (h : StealStep st st') :
    stateMs st' = stateMs st := by
  cases h with
  | own k s hk hne =>
      have hset := slotsMs_set st.slots k s ⟨s.range_start + 1, s.range_end⟩ hk
      have hsplit : ivalSlot s =
          s.range_start ::ₘ ivalSlot ⟨s.range_start + 1, s.range_end⟩ :=
        ival_cons_left _ _ hne
      rw [hsplit, Multiset.add_cons] at hset
      rw [← Multiset.cons_add] at hset
      have hcancel := add_right_cancel hset
      show ((st.executed ++ [s.range_start] : List Nat) : Multiset Nat) +
          slotsMs (st.slots.set k ⟨s.range_start + 1, s.range_end⟩) =
        (st.executed : Multiset Nat) + slotsMs st.slots
      rw [← Multiset.coe_add, Multiset.coe_singleton, add_assoc,
        Multiset.singleton_add, hcancel]
  | steal k s hk hne =>
      have hset := slotsMs_set st.slots k s ⟨s.range_start, s.range_end - 1⟩ hk
      have hsplit : ivalSlot s =
          (s.range_end - 1) ::ₘ ivalSlot ⟨s.range_start, s.range_end - 1⟩ :=
        ival_cons_right _ _ hne
      rw [hsplit, Multiset.add_cons] at hset
      rw [← Multiset.cons_add] at hset
      have hcancel := add_right_cancel hset
      show ((st.executed ++ [s.range_end - 1] : List Nat) : Multiset Nat) +
          slotsMs (st.slots.set k ⟨s.range_start, s.range_end - 1⟩) =
        (st.executed : Multiset Nat) + slotsMs st.slots
      rw [← Multiset.coe_add, Multiset.coe_singleton, add_assoc,
        Multiset.singleton_add, hcancel]

lemma reach_stateMs (st st' : PoolState)
    (h : Relation.ReflTransGen StealStep st st') :
    stateMs st' = stateMs st := by
  induction h with
  | refl => rfl
  | tail hab hbc ih => rw [stealStep_stateMs _ _ hbc, ih]

lemma slotStart_mono (tc n k : Nat) :
    slotStart tc n k ≤ slotStart tc n (k + 1) := by
  rw [slotStart, slotStart]
  have h1 : min k (n % tc) ≤ min (k + 1) (n % tc) := by omega
  have h2 : k * (n / tc) ≤ (k + 1) * (n / tc) :=
    Nat.mul_le_mul_right _ (Nat.le_succ k)
  omega

lemma slotStart_zero (tc n : Nat) : slotStart tc n 0 = 0 := by
  rw [slotStart]
  simp

lemma slotStart_last (tc n : Nat) (htc : 1 ≤ tc) : slotStart tc n tc = n := by
  rw [slotStart]
  have h1 : n % tc < tc := Nat.mod_lt n (by omega)
  rw [min_eq_right (by omega)]
  exact Nat.div_add_mod n tc

lemma sum_ival_consecutive (g : Nat → Nat) (hg : ∀ k, g k ≤ g (k + 1))
    (m : Nat) :
    (((List.range m).map (fun k => ival (g k) (g (k + 1)))).sum : Multiset Nat) =
      ival (g 0) (g m) := by
  induction m with
  | zero =>
      rw [List.range_zero, List.map_nil, List.sum_nil,
        ival_empty _ _ (le_refl _)]
  | succ m ih =>
      rw [List.range_succ, List.map_append, List.sum_append, ih]
      simp only [List.map_cons, List.map_nil, List.sum_cons, List.sum_nil,
        add_zero]
      exact ival_append _ _ _ (monotone_nat_of_le_succ hg (Nat.zero_le m))
        (hg m)

lemma stateMs_initState (tc n : Nat) (htc : 1 ≤ tc) :
    stateMs (initState tc n) = ((List.range n : List Nat) : Multiset Nat) := by
  show ((([] : List Nat) : Multiset Nat)) + slotsMs (initSlots tc n) =
    ((List.range n : List Nat) : Multiset Nat)
  rw [Multiset.coe_nil, zero_add, slotsMs, initSlots, List.map_map]
  have hcomp : (ivalSlot ∘ fun k =>
      thread_info.mk (slotStart tc n k) (slotStart tc n (k + 1)))
      = fun k => ival (slotStart tc n k) (slotStart tc n (k + 1)) := rfl
  rw [hcomp, sum_ival_consecutive (slotStart tc n) (slotStart_mono tc n) tc,
    slotStart_zero, slotStart_last tc n htc, ival, Nat.sub_zero,
    ← List.range_eq_range']

lemma slotsMs_allDone (l : List thread_info)
    (h : ∀ s ∈ l, s.range_end ≤ s.range_start) : slotsMs l = 0 := by
  induction l with
  | nil => rfl
  | cons hd tl ih =>
      rw [slotsMs_cons, ivalSlot, ival_empty _ _ (h hd (List.mem_cons_self hd tl)),
        zero_add]
      exact ih (fun s hs => h s (List.mem_cons_of_mem hd hs))

/-- Claim C3 (modelled from the spec, as the worker loop is absent from
this excerpt): for every dispatch of range `n` on a pool of
`threads_count ≥ 1` workers, and every scheduling interleaving of owner
claims and steals that drains every slot, the list of executed indices is
a permutation of `0, …, n-1`: each index is executed by exactly one
worker, exactly once, with no duplicates and no omissions. -/
theorem work_stealing_exact_coverage (threads_count n : Nat)
    (htc : 1 ≤ threads_count) (st : PoolState)
    (hreach : Relation.ReflTransGen StealStep (initState threads_count n) st)
    (hdone : allDone st) :
    st.executed.Perm (List.range n) ∧ st.executed.Nodup ∧
      (∀ i, i ∈ st.executed ↔ i < n) := by
  have h1 := reach_stateMs _ _ hreach
  rw [stateMs_initState threads_count n htc] at h1
  rw [stateMs, slotsMs_allDone st.slots hdone, add_zero] at h1
  have hperm : st.executed.Perm (List.range n) := Multiset.coe_eq_coe.mp h1
  refine ⟨hperm, hperm.nodup_iff.mpr (List.nodup_range n), ?_⟩
  intro i
  rw [hperm.mem_iff, List.mem_range]

/-- Witness for C3: a pool of one thread over range 1; the single owner
claim drains the slot and the executed trace `[0]` is a permutation of
`range 1`. -/
theorem work_stealing_exact_coverage_witness :
    (PoolState.mk ((initState 1 1).slots.set 0 ⟨0 + 1, 1⟩)
        ((initState 1 1).executed ++ [0])).executed.Perm (List.range 1) ∧
      (PoolState.mk ((initState 1 1).slots.set 0 ⟨0 + 1, 1⟩)
        ((initState 1 1).executed ++ [0])).executed.Nodup ∧
      (∀ i, i ∈ (PoolState.mk ((initState 1 1).slots.set 0 ⟨0 + 1, 1⟩)
        ((initState 1 1).executed ++ [0])).executed ↔ i < 1) :=
  work_stealing_exact_coverage 1 1 (by decide) _
    (Relation.ReflTransGen.single
      (StealStep.own (initState 1 1) 0 ⟨0, 1⟩ (by decide) (by decide)))
    (by decide)
